import Mathlib

/-!
Shallow embedding of the ipld-block-builder crate: content identifiers,
blocks, the authenticated-encryption functions of crypto.rs, the batch
commit protocol of builder.rs, the typed cache of cache.rs and the
DagPath resolver of lib.rs, together with theorems settling the
claims of the specification about them.
-/

set_option autoImplicit false

namespace IpldBB

/-- Decidable equality for Except results, used to evaluate outcomes on
concrete inputs. -/
instance instDecEqExcept {ε α : Type} [DecidableEq ε] [DecidableEq α] :
    DecidableEq (Except ε α) := fun a b =>
  match a, b with
  | .error e1, .error e2 =>
    if h : e1 = e2 then isTrue (h ▸ rfl) else isFalse (fun hc => h (Except.error.inj hc))
  | .error _, .ok _ => isFalse (fun hc => Except.noConfusion hc)
  | .ok _, .error _ => isFalse (fun hc => Except.noConfusion hc)
  | .ok a1, .ok a2 =>
    if h : a1 = a2 then isTrue (h ▸ rfl) else isFalse (fun hc => h (Except.ok.inj hc))

/-- A content identifier: codec tag plus hash digest (model of the libipld Cid). -/
structure Cid where
  codec : Nat
  hash : List Nat
deriving DecidableEq, Repr

/-- A content-addressed block: identifier plus byte payload. -/
structure Block where
  cid : Cid
  data : List Nat
deriving DecidableEq, Repr

/-- Visibility of inserted blocks, fixed at builder construction. -/
inductive Visibility where
  | Public
  | Private
deriving DecidableEq, Repr

/-- Codec tags of the libipld cid crate that this crate passes to the
crypto engine (external dependency, modelled at its interface). -/
inductive Codec where
  | raw
  | dagCBOR
  | dagProtobuf
  | dagJSON
deriving DecidableEq, Repr

/-- The u64 value of a codec tag (the `Into<u64>` impl of the libipld Codec). -/
def Codec.toNat : Codec → Nat
  | .raw => 0x55
  | .dagCBOR => 0x71
  | .dagProtobuf => 0x70
  | .dagJSON => 0x0129

/-- Model of `Codec::try_from` on a raw u64 tag (the `TryFrom<u64>` impl of the libipld Codec). -/
def Codec.tryFrom (n : Nat) : Option Codec :=
  if n = 0x55 then some .raw
  else if n = 0x71 then some .dagCBOR
  else if n = 0x70 then some .dagProtobuf
  else if n = 0x0129 then some .dagJSON
  else none

theorem Codec.tryFrom_toNat (c : Codec) : Codec.tryFrom c.toNat = some c := by
  cases c <;> rfl

/-- Errors of the `Error` enum in crypto.rs. -/
inductive CryptoError where
  | keyTooShort
  | cipherTooShort
  | integrity
  | codec
deriving DecidableEq, Repr

/-- Unsigned LEB128 encoding with explicit fuel, mirroring the 10-byte
output buffer of `unsigned_varint::encode::u64_buffer`; fuel 10 covers
every u64 value, so the fuel-exhausted arm is unreachable on u64 inputs. -/
def varintEncodeAux : Nat → Nat → List Nat
  | 0, n => [n % 128]
  | fuel + 1, n =>
    if n < 128 then [n] else (n % 128 + 128) :: varintEncodeAux fuel (n / 128)

/-- Unsigned LEB128 encoding of a u64 (`unsigned_varint::encode::u64`). -/
def varintEncode (n : Nat) : List Nat := varintEncodeAux 10 n

/-- Unsigned LEB128 decoding (`unsigned_varint::decode::u64`): returns the
decoded value and the remaining bytes, or none on malformed input. -/
def varintDecode : List Nat → Option (Nat × List Nat)
  | [] => none
  | b :: rest =>
    if b < 128 then some (b, rest)
    else
      match varintDecode rest with
      | some (n, rest1) => some (b % 128 + 128 * n, rest1)
      | none => none

theorem varintDecode_varintEncodeAux (fuel : Nat) :
    ∀ (n : Nat) (rest : List Nat), n < 128 ^ fuel →
      varintDecode (varintEncodeAux fuel n ++ rest) = some (n, rest) := by
  induction fuel with
  | zero =>
    intro n rest h
    have hn : n = 0 := by simpa using h
    subst hn
    rfl
  | succ fuel ih =>
    intro n rest h
    by_cases h1 : n < 128
    · simp [varintEncodeAux, h1, varintDecode]
    · simp only [varintEncodeAux, h1, if_false, List.cons_append]
      rw [varintDecode]
      have h2 : ¬ (n % 128 + 128 < 128) := by omega
      have h3 : n / 128 < 128 ^ fuel := by
        rw [pow_succ] at h
        omega
      simp only [h2, if_false, ih (n / 128) rest h3]
      have h4 : (n % 128 + 128) % 128 + 128 * (n / 128) = n := by omega
      rw [h4]

theorem varintDecode_varintEncode (n : Nat) (rest : List Nat) (h : n < 2 ^ 64) :
    varintDecode (varintEncode n ++ rest) = some (n, rest) := by
  apply varintDecode_varintEncodeAux
  calc n < 2 ^ 64 := h
    _ ≤ 128 ^ 10 := by norm_num

/-- The number of bytes of the crypto nonce (crypto.rs `NONCE_LEN`). -/
def NONCE_LEN : Nat := 24

/-- The number of bytes of the authentication tag (crypto.rs `TAG_LEN`). -/
def TAG_LEN : Nat := 16

/-- Model of the strobe-rs duplex at the granularity this crate uses it:
the sponge state is the transcript of absorbed data, and the keystream and
mac extraction are arbitrary functions of the transcript (the Keccak
permutation is an external collaborator). -/
structure StrobeModel where
  ks : List Nat → Nat → Nat
  mac : List Nat → Nat → Nat

/-- The transcript of `Strobe::new(b"ipld-block-builder", SecParam::B128)`:
the ASCII bytes of the domain-separation label "ipld-block-builder". -/
def initTranscript : List Nat :=
  [105, 112, 108, 100, 45, 98, 108, 111, 99, 107, 45, 98, 117, 105, 108, 100, 101, 114]

/-- Absorb data as associated data (strobe `ad`). -/
def ad (tr data : List Nat) : List Nat := tr ++ 0 :: data

/-- XOR a buffer with a keystream starting at byte index i. -/
def xorKs (f : Nat → Nat) : Nat → List Nat → List Nat
  | _, [] => []
  | i, b :: rest => (b ^^^ f i) :: xorKs f (i + 1) rest

theorem xorKs_length (f : Nat → Nat) (i : Nat) (l : List Nat) :
    (xorKs f i l).length = l.length := by
  induction l generalizing i with
  | nil => rfl
  | cons b rest ih => simp [xorKs, ih]

theorem xorKs_xorKs (f : Nat → Nat) (i : Nat) (l : List Nat) :
    xorKs f i (xorKs f i l) = l := by
  induction l generalizing i with
  | nil => rfl
  | cons b rest ih =>
    simp only [xorKs, ih]
    congr 1
    rw [Nat.xor_assoc, Nat.xor_self, Nat.xor_zero]

/-- Encrypt a buffer in place (strobe `send_enc`): returns the ciphertext and
the updated transcript (the transcript absorbs the ciphertext). -/
def sendEnc (m : StrobeModel) (tr data : List Nat) : List Nat × List Nat :=
  let ct := xorKs (m.ks tr) 0 data
  (ct, tr ++ 1 :: ct)

/-- Decrypt a buffer in place (strobe `recv_enc`): returns the plaintext and
the updated transcript (the transcript absorbs the ciphertext). -/
def recvEnc (m : StrobeModel) (tr ct : List Nat) : List Nat × List Nat :=
  (xorKs (m.ks tr) 0 ct, tr ++ 1 :: ct)

/-- Produce an authentication tag of n bytes (strobe `send_mac`). -/
def sendMac (m : StrobeModel) (tr : List Nat) (n : Nat) : List Nat :=
  (List.range n).map (m.mac tr)

/-- Check a received authentication tag (strobe `recv_mac`). -/
def recvMac (m : StrobeModel) (tr mac : List Nat) : Bool :=
  mac == sendMac m tr mac.length

theorem sendMac_length (m : StrobeModel) (tr : List Nat) (n : Nat) :
    (sendMac m tr n).length = n := by
  simp [sendMac]

/-- The sponge transcript after absorbing the key and the nonce, as both
encrypt and decrypt derive it. -/
def encTranscript (key nonce : List Nat) : List Nat :=
  ad (ad initTranscript key) nonce

/-- crypto.rs `encrypt`: fail if the key is shorter than 16 bytes; varint
encode the codec tag, prepend it to the plaintext, encrypt the combined
buffer under the transcript (label, key, nonce), and output
nonce ‖ ciphertext ‖ 16-byte tag. The 24-byte random nonce is a parameter
of the model. -/
def encrypt (m : StrobeModel) (key : List Nat) (codec : Codec) (data : List Nat)
    (nonce : List Nat) : Except CryptoError (List Nat) :=
  if key.length < 16 then .error .keyTooShort
  else
    let inner := varintEncode codec.toNat ++ data
    let (ct, tr) := sendEnc m (encTranscript key nonce) inner
    .ok (nonce ++ ct ++ sendMac m tr TAG_LEN)

/-- crypto.rs `decrypt`: fail if the key is shorter than 16 bytes; fail if
the buffer is shorter than nonce + tag; decrypt the middle segment under
the transcript (label, key, nonce); parse the leading varint as the codec
tag; verify the trailing 16-byte tag; return the codec and plaintext. -/
def decrypt (m : StrobeModel) (key : List Nat) (buf : List Nat) :
    Except CryptoError (Codec × List Nat) :=
  if key.length < 16 then .error .keyTooShort
  else if buf.length < TAG_LEN + NONCE_LEN then .error .cipherTooShort
  else
    let nonce := buf.take NONCE_LEN
    let mid := (buf.drop NONCE_LEN).take (buf.length - NONCE_LEN - TAG_LEN)
    let (pt, tr) := recvEnc m (encTranscript key nonce) mid
    match varintDecode pt with
    | none => .error .codec
    | some (raw, rest) =>
      match Codec.tryFrom raw with
      | none => .error .codec
      | some codec =>
        let mac := buf.drop (buf.length - TAG_LEN)
        if recvMac m tr mac then .ok (codec, rest) else .error .integrity

/-- A call issued by the builder to the block store (builder.rs forwards
`store.insert` and `store.unpin`). -/
inductive StoreCall where
  | insert (cid : Cid) (data : List Nat) (vis : Visibility)
  | unpin (cid : Cid)
deriving DecidableEq, Repr

/-- Whether a store call is an insert. -/
def StoreCall.isInsert : StoreCall → Bool
  | .insert _ _ _ => true
  | .unpin _ => false

/-- Whether a store call is an unpin. -/
def StoreCall.isUnpin : StoreCall → Bool
  | .insert _ _ _ => false
  | .unpin _ => true

/-- Errors surfaced by the builder: the libipld `Error::BlockTooLarge`, a
codec failure, or a store failure propagated verbatim. -/
inductive BError where
  | blockTooLarge (size : Nat)
  | codecError
  | storeError
  | notFound
  | notIndexable
deriving DecidableEq, Repr

/-- A store oracle: given the calls issued so far and the next call, decide
whether the store reports success. -/
def StoreOracle : Type := List StoreCall → StoreCall → Bool

/-- The loop of builder.rs `insert_batch`: insert each block in order,
unpinning the previous block immediately after each insert from the second
on; a store failure propagates; an empty batch yields
`Error::BlockTooLarge(0)` (the TODO stand-in the code uses for EmptyBatch).
Returns the trace of store calls issued and the result. -/
def insertBatchLoop (ok : StoreOracle) (vis : Visibility) :
    List Block → List StoreCall → Option Cid → List StoreCall × Except BError Cid
  | [], _, last =>
    ([], match last with
         | some c => .ok c
         | none => .error (.blockTooLarge 0))
  | b :: rest, hist, last =>
    let ci := StoreCall.insert b.cid b.data vis
    if ok hist ci then
      match last with
      | none =>
        let (tr, r) := insertBatchLoop ok vis rest (hist ++ [ci]) (some b.cid)
        (ci :: tr, r)
      | some lc =>
        let cu := StoreCall.unpin lc
        if ok (hist ++ [ci]) cu then
          let (tr, r) := insertBatchLoop ok vis rest (hist ++ [ci, cu]) (some b.cid)
          (ci :: cu :: tr, r)
        else ([ci, cu], .error .storeError)
    else ([ci], .error .storeError)

/-- builder.rs `insert_batch`, started with no previous call and no last cid. -/
def insertBatch (ok : StoreOracle) (vis : Visibility) (blocks : List Block) :
    List StoreCall × Except BError Cid :=
  insertBatchLoop ok vis blocks [] none

/-- The store-call trace the commit protocol prescribes: insert block 0,
then for each later block an insert immediately followed by the unpin of
its predecessor; `last` is the cid pending unpin when the loop starts. -/
def batchTrace (vis : Visibility) : Option Cid → List Block → List StoreCall
  | _, [] => []
  | none, b :: rest =>
    .insert b.cid b.data vis :: batchTrace vis (some b.cid) rest
  | some lc, b :: rest =>
    .insert b.cid b.data vis :: .unpin lc :: batchTrace vis (some b.cid) rest

theorem batchTrace_count_insert (vis : Visibility) (last : Option Cid) (blocks : List Block) :
    (batchTrace vis last blocks).countP (fun c => c.isInsert) = blocks.length := by
  induction blocks generalizing last with
  | nil => cases last <;> rfl
  | cons b rest ih =>
    cases last with
    | none =>
      simp only [batchTrace, List.countP_cons, List.length_cons, ih (some b.cid)]
      rfl
    | some lc =>
      simp only [batchTrace, List.countP_cons, List.length_cons, ih (some b.cid)]
      rfl

theorem batchTrace_count_unpin_some (vis : Visibility) (lc : Cid) (blocks : List Block) :
    (batchTrace vis (some lc) blocks).countP (fun c => c.isUnpin) = blocks.length := by
  induction blocks generalizing lc with
  | nil => rfl
  | cons b rest ih =>
    simp only [batchTrace, List.countP_cons, List.length_cons, ih b.cid]
    rfl

theorem batchTrace_count_unpin_none (vis : Visibility) (blocks : List Block) :
    (batchTrace vis none blocks).countP (fun c => c.isUnpin) = blocks.length - 1 := by
  cases blocks with
  | nil => rfl
  | cons b rest =>
    simp only [batchTrace, List.countP_cons, List.length_cons,
      batchTrace_count_unpin_some vis b.cid rest]
    rfl

theorem insertBatchLoop_ok (ok : StoreOracle) (vis : Visibility) (blocks : List Block)
    (hist : List StoreCall) (last : Option Cid) (c : Cid)
    (h : (insertBatchLoop ok vis blocks hist last).2 = .ok c) :
    (insertBatchLoop ok vis blocks hist last).1 = batchTrace vis last blocks
      ∧ (blocks.getLast?.map Block.cid).or last = some c := by
  induction blocks generalizing hist last with
  | nil =>
    cases last with
    | none => simp [insertBatchLoop] at h
    | some lc =>
      simp only [insertBatchLoop, Except.ok.injEq] at h
      subst h
      exact ⟨rfl, rfl⟩
  | cons b rest ih =>
    by_cases hok : ok hist (StoreCall.insert b.cid b.data vis)
    · cases last with
      | none =>
        simp only [insertBatchLoop, hok, if_true] at h ⊢
        have hr := ih (hist ++ [StoreCall.insert b.cid b.data vis]) (some b.cid) h
        refine ⟨?_, ?_⟩
        · simp only [batchTrace, hr.1]
        · have h2 := hr.2
          cases hrest : rest.getLast? with
          | none =>
            have hre : rest = [] := List.getLast?_eq_none_iff.mp hrest
            subst hre
            simpa using h2
          | some bl =>
            rw [hrest] at h2
            have : (b :: rest).getLast? = some bl := by
              cases rest with
              | nil => simp at hrest
              | cons x xs => rw [List.getLast?_cons_cons]; exact hrest
            rw [this]
            simpa using h2
      | some lc =>
        by_cases hok2 : ok (hist ++ [StoreCall.insert b.cid b.data vis]) (StoreCall.unpin lc)
        · simp only [insertBatchLoop, hok, hok2, if_true] at h ⊢
          have hr := ih (hist ++ [StoreCall.insert b.cid b.data vis, StoreCall.unpin lc])
            (some b.cid) h
          refine ⟨?_, ?_⟩
          · simp only [batchTrace, hr.1]
          · have h2 := hr.2
            cases hrest : rest.getLast? with
            | none =>
              have hre : rest = [] := List.getLast?_eq_none_iff.mp hrest
              subst hre
              simpa using h2
            | some bl =>
              rw [hrest] at h2
              have : (b :: rest).getLast? = some bl := by
                cases rest with
                | nil => simp at hrest
                | cons x xs => rw [List.getLast?_cons_cons]; exact hrest
              rw [this]
              simpa using h2
        · simp [insertBatchLoop, hok, hok2] at h
    · simp [insertBatchLoop, hok] at h

/-- batch.rs `insert`: encode the value (plain encode, or
encrypt-then-raw-encode when the builder holds a key — both abstracted as
the encode function) and append the block; returns the new block list and
the cid of the appended block. -/
def batchInsert {α : Type} (enc : α → Except BError Block) (blocks : List Block) (e : α) :
    Except BError (List Block × Cid) :=
  match enc e with
  | .error er => .error er
  | .ok b => .ok (blocks ++ [b], b.cid)

/-- lib.rs `insert`: encode the value, insert the block into the store
directly, return its cid. -/
def libInsert {α : Type} (enc : α → Except BError Block) (ok : StoreOracle)
    (vis : Visibility) (e : α) : List StoreCall × Except BError Cid :=
  match enc e with
  | .error er => ([], .error er)
  | .ok b =>
    let ci := StoreCall.insert b.cid b.data vis
    if ok [] ci then ([ci], .ok b.cid) else ([ci], .error .storeError)

/-- builder.rs `insert`: create a batch, insert the single value into it,
and commit it with `insert_batch`. -/
def builderInsert {α : Type} (enc : α → Except BError Block) (ok : StoreOracle)
    (vis : Visibility) (e : α) : List StoreCall × Except BError Cid :=
  match batchInsert enc [] e with
  | .error er => ([], .error er)
  | .ok (blocks, _) => insertBatch ok vis blocks

/-- Model of `SizedCache` from the `cached` crate: a fixed capacity and the
entries in most-recently-used-first order. -/
structure SizedCache (T : Type) where
  cap : Nat
  entries : List (Cid × T)
deriving Repr

/-- Model of `cache_set`: put the entry at the most-recent position, dropping any
older entry for the same key and evicting beyond the capacity. -/
def cacheSet {T : Type} (c : SizedCache T) (k : Cid) (v : T) : SizedCache T :=
  ⟨c.cap, ((k, v) :: c.entries.filter (fun e => decide (e.1 ≠ k))).take c.cap⟩

/-- Model of `cache_get`: look the key up; on a hit return the value and refresh its
recency, on a miss leave the cache unchanged. -/
def cacheGet {T : Type} (c : SizedCache T) (k : Cid) : Option T × SizedCache T :=
  match c.entries.find? (fun e => decide (e.1 = k)) with
  | some e => (some e.2, cacheSet c k e.2)
  | none => (none, c)

/-- cache.rs `insert`: insert through the builder, then record the decoded
value in the cache under the returned cid. -/
def cacheInsert {T : Type} (enc : T → Except BError Block) (ok : StoreOracle)
    (vis : Visibility) (st : SizedCache T) (v : T) :
    SizedCache T × List StoreCall × Except BError Cid :=
  match builderInsert enc ok vis v with
  | (tr, .error e) => (st, tr, .error e)
  | (tr, .ok cid) => (cacheSet st cid v, tr, .ok cid)

/-- cache.rs `CacheBatch`: the staged blocks paired with the decoded
(cid, value) pairs that produced them. -/
structure CacheBatch (T : Type) where
  pairs : List (Cid × T)
  blocks : List Block

/-- cache.rs `CacheBatch::insert`: insert into the inner batch, then push
the (cid, value) pair. -/
def cacheBatchInsert {T : Type} (enc : T → Except BError Block) (cb : CacheBatch T)
    (v : T) : Except BError (CacheBatch T × Cid) :=
  match enc v with
  | .error e => .error e
  | .ok b => .ok (⟨cb.pairs ++ [(b.cid, v)], cb.blocks ++ [b]⟩, b.cid)

/-- cache.rs `insert_batch`: commit the inner batch through the builder;
only on success fold the staged pairs into the cache. -/
def cacheInsertBatch {T : Type} (ok : StoreOracle) (vis : Visibility)
    (st : SizedCache T) (cb : CacheBatch T) :
    SizedCache T × List StoreCall × Except BError Cid :=
  match insertBatch ok vis cb.blocks with
  | (tr, .error e) => (st, tr, .error e)
  | (tr, .ok cid) =>
    (cb.pairs.foldl (fun s p => cacheSet s p.1 p.2) st, tr, .ok cid)

/-- cache.rs `get`: on a cache hit return the cached value without touching
the store; on a miss fetch and decode through the builder (`dec`) and
populate the cache. The Bool records whether the store was read. -/
def cacheGetOp {T : Type} (dec : Cid → Except BError T) (st : SizedCache T) (cid : Cid) :
    SizedCache T × Bool × Except BError T :=
  match cacheGet st cid with
  | (some v, st1) => (st1, false, .ok v)
  | (none, st1) =>
    match dec cid with
    | .error e => (st1, true, .error e)
    | .ok v => (cacheSet st1 cid v, true, .ok v)

/-- The generic value tree of libipld (its `Ipld` enum); floats are carried
as uninterpreted bit patterns. -/
inductive Ipld where
  | null
  | bool (b : Bool)
  | integer (i : Int)
  | float (bits : Nat)
  | string (s : String)
  | bytes (b : List Nat)
  | list (l : List Ipld)
  | map (m : List (String × Ipld))
  | link (c : Cid)

/-- Parse a digit string into a number (the digit loop of parsing a
sequence index from a path segment). -/
def digitsToNat? : List Char → Nat → Option Nat
  | [], acc => some acc
  | ch :: rest, acc =>
    if ch.isDigit then digitsToNat? rest (acc * 10 + (ch.toNat - 48)) else none

/-- Parse a path segment as a sequence index (the Rust `str::parse::<usize>`
at the granularity the resolver uses it: digits only, empty rejected). -/
def segToNat? (s : String) : Option Nat :=
  match s.data with
  | [] => none
  | l => digitsToNat? l 0

/-- Model of `Ipld::get` of libipld on a path segment: key lookup for maps, position
lookup (parsing the segment as a number) for sequences, an error for any
other shape. -/
def ipldGet : Ipld → String → Except BError Ipld
  | .map entries, seg =>
    match entries.find? (fun e => decide (e.1 = seg)) with
    | some e => .ok e.2
    | none => .error .notFound
  | .list l, seg =>
    match segToNat? seg with
    | some n =>
      match l[n]? with
      | some v => .ok v
      | none => .error .notFound
    | none => .error .notFound
  | _, _ => .error .notIndexable

/-- A path in a dag: root cid plus the slash-separated segments (path.rs
`DagPath`). -/
structure DagPath where
  root : Cid
  segments : List String
deriving DecidableEq, Repr

/-- path.rs `From<&Cid> for DagPath`: the root with the default (empty)
segment list. -/
def DagPath.fromCid (c : Cid) : DagPath := ⟨c, []⟩

/-- The segment loop of `get_path`: index the current value with each
segment in order and, whenever the result is a link, fetch and decode the
linked block and continue from it. Returns the list of cids fetched and
the result. -/
def resolveSegs (fetch : Cid → Except BError Ipld) :
    Ipld → List String → List Cid × Except BError Ipld
  | cur, [] => ([], .ok cur)
  | cur, seg :: rest =>
    match ipldGet cur seg with
    | .error e => ([], .error e)
    | .ok next =>
      match next with
      | .link c =>
        match fetch c with
        | .error e => ([c], .error e)
        | .ok v =>
          let (tr, r) := resolveSegs fetch v rest
          (c :: tr, r)
      | _ => resolveSegs fetch next rest

/-- lib.rs `get_path`: decode the root block (`get_ipld`, abstracted as
`fetch`), then run the segment loop. Returns the list of cids fetched and
the result. -/
def getPath (fetch : Cid → Except BError Ipld) (p : DagPath) :
    List Cid × Except BError Ipld :=
  match fetch p.root with
  | .error e => ([p.root], .error e)
  | .ok v =>
    let (tr, r) := resolveSegs fetch v p.segments
    (p.root :: tr, r)

theorem resolveSegs_snoc_link (fetch : Cid → Except BError Ipld) (cur cur1 : Ipld)
    (pre : List String) (tr : List Cid) (s : String) (c : Cid)
    (hpre : resolveSegs fetch cur pre = (tr, .ok cur1))
    (hseg : ipldGet cur1 s = .ok (.link c)) :
    resolveSegs fetch cur (pre ++ [s]) = (tr ++ [c], fetch c) := by
  induction pre generalizing cur tr with
  | nil =>
    simp only [resolveSegs, Prod.mk.injEq, Except.ok.injEq] at hpre
    obtain ⟨htr, hcur⟩ := hpre
    subst htr
    subst hcur
    cases hf : fetch c <;> simp [resolveSegs, hseg, hf]
  | cons s0 rest ih =>
    simp only [resolveSegs, List.cons_append] at hpre ⊢
    cases hg : ipldGet cur s0 with
    | error e => rw [hg] at hpre; simp at hpre
    | ok next =>
      rw [hg] at hpre
      cases next with
      | link c0 =>
        dsimp only at hpre ⊢
        cases hf0 : fetch c0 with
        | error e => rw [hf0] at hpre; simp at hpre
        | ok v =>
          rw [hf0] at hpre
          simp only [Prod.mk.injEq] at hpre
          obtain ⟨htr, hr⟩ := hpre
          have hrest : resolveSegs fetch v rest = ((resolveSegs fetch v rest).1, .ok cur1) := by
            rw [← hr]
          have h2 := ih v (resolveSegs fetch v rest).1 hrest
          have h3 : resolveSegs fetch v (rest.append [s])
              = ((resolveSegs fetch v rest).1 ++ [c], fetch c) := h2
          simp only [h3, ← htr, List.cons_append]
      | null => exact ih _ _ hpre
      | bool b => exact ih _ _ hpre
      | integer i => exact ih _ _ hpre
      | float f => exact ih _ _ hpre
      | string s1 => exact ih _ _ hpre
      | bytes b => exact ih _ _ hpre
      | list l => exact ih _ _ hpre
      | map mp => exact ih _ _ hpre

/-- Cid of the first demo block (the block holding a map with key a). -/
def cidA : Cid := ⟨0x71, [1]⟩

/-- Cid of the root demo block. -/
def cidRoot : Cid := ⟨0x71, [2]⟩

/-- The decoded view of the store after the two demo inserts of the
linked-DAG scenario. -/
def demoStore : List (Cid × Ipld) :=
  [(cidA, .map [("a", .integer 3)]),
   (cidRoot, .map [("root", .list [.map [("child", .link cidA)]])])]

/-- Fetch-and-decode over a decoded store view (`get_ipld` against a store
holding these blocks). -/
def fetchOf (st : List (Cid × Ipld)) : Cid → Except BError Ipld :=
  fun c =>
    match st.find? (fun e => decide (e.1 = c)) with
    | some e => .ok e.2
    | none => .error .notFound

/-- A strobe model whose keystream and mac bytes are identically zero,
used for concrete evaluations. -/
def m0 : StrobeModel := ⟨fun _ _ => 0, fun _ _ => 0⟩

/-- A 16-byte all-zero key. -/
def wKey : List Nat := List.replicate 16 0

/-- A 24-byte all-zero nonce. -/
def wNonce : List Nat := List.replicate 24 0

/-- A store oracle that accepts every call. -/
def okAll : StoreOracle := fun _ _ => true

/-- A store oracle that rejects every call. -/
def okNone : StoreOracle := fun _ _ => false

/-- First demo block. -/
def wB0 : Block := ⟨⟨0x71, [3]⟩, [10]⟩

/-- Second demo block. -/
def wB1 : Block := ⟨⟨0x71, [4]⟩, [11]⟩

/-- A demo encoder assigning each Nat its own block. -/
def enc0 : Nat → Except BError Block := fun n => .ok ⟨⟨0x71, [n]⟩, [n]⟩

/-- A demo cache batch holding one staged pair and one staged block. -/
def wCacheBatch : CacheBatch Nat := ⟨[(⟨0x71, [3]⟩, 7)], [wB0]⟩

/-- A demo cache state with capacity four and no entries. -/
def wCache : SizedCache Nat := ⟨4, []⟩

/-- Claim C1: committing a batch of zero blocks fails — but the error the
code returns is BlockTooLarge(0) from libipld, used as a placeholder (the
code carries a TODO to add the EmptyBatch error the specification names).
Evaluates the commit loop at the failing input. -/
theorem insertBatch_empty_fails_blockTooLarge (ok : StoreOracle) (vis : Visibility) :
    insertBatch ok vis [] = ([], .error (BError.blockTooLarge 0)) := rfl

/-- Claim C2: a successful insert_batch over N blocks returns the last
cid of the last block and issues exactly the strictly interleaved call sequence —
insert block 0, then for each i from 1 on insert block i immediately
followed by the unpin of block i-1, the last block never unpinned — hence
N inserts and N-1 unpins. -/
theorem insertBatch_success_trace (ok : StoreOracle) (vis : Visibility)
    (blocks : List Block) (c : Cid)
    (h : (insertBatch ok vis blocks).2 = .ok c) :
    blocks.getLast?.map Block.cid = some c
      ∧ (insertBatch ok vis blocks).1 = batchTrace vis none blocks
      ∧ (insertBatch ok vis blocks).1.countP (fun sc => sc.isInsert) = blocks.length
      ∧ (insertBatch ok vis blocks).1.countP (fun sc => sc.isUnpin) = blocks.length - 1 := by
  have hr := insertBatchLoop_ok ok vis blocks [] none c h
  have htr : (insertBatch ok vis blocks).1 = batchTrace vis none blocks := hr.1
  have hlast : blocks.getLast?.map Block.cid = some c := by
    have h2 := hr.2
    cases hgl : blocks.getLast?.map Block.cid with
    | none => rw [hgl] at h2; simp [Option.or] at h2
    | some x =>
      rw [hgl] at h2
      simp [Option.or] at h2
      rw [h2]
  refine ⟨hlast, htr, ?_, ?_⟩
  · rw [htr]; exact batchTrace_count_insert vis none blocks
  · rw [htr]; exact batchTrace_count_unpin_none vis blocks

/-- Witness for C2: a concrete two-block batch against an always-accepting
store. -/
theorem insertBatch_success_trace_witness :
    [wB0, wB1].getLast?.map Block.cid = some wB1.cid
      ∧ (insertBatch okAll .Public [wB0, wB1]).1 = batchTrace .Public none [wB0, wB1]
      ∧ (insertBatch okAll .Public [wB0, wB1]).1.countP (fun sc => sc.isInsert)
          = [wB0, wB1].length
      ∧ (insertBatch okAll .Public [wB0, wB1]).1.countP (fun sc => sc.isUnpin)
          = [wB0, wB1].length - 1 :=
  insertBatch_success_trace okAll .Public [wB0, wB1] wB1.cid (by decide)

/-- Claim C3: for every encodable value, the single-value insert of lib.rs
(encode then store-insert) and the batch route of builder.rs (create a batch,
insert the single value, commit with insert_batch) issue the same store
calls — hence store the same (cid, bytes) block — and return the same cid. -/
theorem insert_refines_single_batch {α : Type} (enc : α → Except BError Block)
    (ok : StoreOracle) (vis : Visibility) (e : α) (b : Block)
    (henc : enc e = .ok b) :
    libInsert enc ok vis e = builderInsert enc ok vis e := by
  simp only [libInsert, builderInsert, batchInsert, insertBatch, henc, List.nil_append]
  by_cases hok : ok [] (StoreCall.insert b.cid b.data vis) <;>
    simp [insertBatchLoop, hok]

/-- Witness for C3 at a concrete encoder and value. -/
theorem insert_refines_single_batch_witness :
    libInsert enc0 okAll .Public 5 = builderInsert enc0 okAll .Public 5 :=
  insert_refines_single_batch enc0 okAll .Public 5 ⟨⟨0x71, [5]⟩, [5]⟩ (by decide)

theorem decrypt_concat (m : StrobeModel) (key nonce inner : List Nat)
    (n : Nat) (rest : List Nat) (c : Codec)
    (hk : ¬ key.length < 16) (hn : nonce.length = 24)
    (hdec : varintDecode inner = some (n, rest))
    (hc : Codec.tryFrom n = some c) :
    decrypt m key (nonce ++ xorKs (m.ks (encTranscript key nonce)) 0 inner
        ++ sendMac m (encTranscript key nonce
              ++ 1 :: xorKs (m.ks (encTranscript key nonce)) 0 inner) TAG_LEN)
      = .ok (c, rest) := by
  set ct := xorKs (m.ks (encTranscript key nonce)) 0 inner with hct
  set mac := sendMac m (encTranscript key nonce ++ 1 :: ct) TAG_LEN with hmacdef
  have hctlen : ct.length = inner.length := by
    rw [hct]; exact xorKs_length _ _ _
  have hmaclen : mac.length = 16 := by
    rw [hmacdef]; exact sendMac_length m _ TAG_LEN
  have hge : ¬ (nonce ++ ct ++ mac).length < TAG_LEN + NONCE_LEN := by
    simp only [TAG_LEN, NONCE_LEN, List.length_append]
    omega
  have htake : (nonce ++ ct ++ mac).take NONCE_LEN = nonce := by
    rw [List.append_assoc]
    have h1 : NONCE_LEN = nonce.length := hn.symm
    rw [h1, List.take_left]
  have hdrop : (nonce ++ ct ++ mac).drop NONCE_LEN = ct ++ mac := by
    rw [List.append_assoc]
    have h1 : NONCE_LEN = nonce.length := hn.symm
    rw [h1, List.drop_left]
  have hmid : ((nonce ++ ct ++ mac).drop NONCE_LEN).take
      ((nonce ++ ct ++ mac).length - NONCE_LEN - TAG_LEN) = ct := by
    rw [hdrop]
    have h2 : (nonce ++ ct ++ mac).length - NONCE_LEN - TAG_LEN = ct.length := by
      simp only [List.length_append, NONCE_LEN, TAG_LEN]
      omega
    rw [h2, List.take_left]
  have hmacpart : (nonce ++ ct ++ mac).drop ((nonce ++ ct ++ mac).length - TAG_LEN) = mac := by
    have h2 : (nonce ++ ct ++ mac).length - TAG_LEN = (nonce ++ ct).length := by
      simp only [List.length_append, TAG_LEN]
      omega
    rw [h2, List.drop_left]
  have hpt : xorKs (m.ks (encTranscript key nonce)) 0 ct = inner := by
    rw [hct]; exact xorKs_xorKs _ _ _
  have hrm : recvMac m (encTranscript key nonce ++ 1 :: ct) mac = true := by
    rw [recvMac, hmaclen]
    rw [hmacdef]
    simp [TAG_LEN]
  unfold decrypt
  rw [if_neg hk, if_neg hge]
  simp only [htake, hmid, hmacpart, recvEnc, hpt, hdec, hc, hrm, if_true]

/-- Claim C4: decrypt inverts encrypt — for every strobe instance, every
key of at least 16 bytes, every 24-byte nonce, every codec tag, and every
plaintext (including the empty one), decrypting the output of encrypt with
the same key succeeds and returns exactly the codec tag and the plaintext. -/
theorem decrypt_encrypt_roundtrip (m : StrobeModel) (key nonce : List Nat) (c : Codec)
    (p out : List Nat) (hk : 16 ≤ key.length) (hn : nonce.length = 24)
    (henc : encrypt m key c p nonce = .ok out) :
    decrypt m key out = .ok (c, p) := by
  have hk2 : ¬ key.length < 16 := by omega
  have hc64 : Codec.toNat c < 2 ^ 64 := by cases c <;> decide
  have hout : out = nonce ++ xorKs (m.ks (encTranscript key nonce)) 0 (varintEncode c.toNat ++ p)
      ++ sendMac m (encTranscript key nonce
            ++ 1 :: xorKs (m.ks (encTranscript key nonce)) 0 (varintEncode c.toNat ++ p))
          TAG_LEN := by
    have h2 := henc
    unfold encrypt at h2
    rw [if_neg hk2] at h2
    simp only [sendEnc, Except.ok.injEq] at h2
    exact h2.symm
  rw [hout]
  exact decrypt_concat m key nonce (varintEncode c.toNat ++ p) c.toNat p c hk2 hn
    (varintDecode_varintEncode c.toNat p hc64) (Codec.tryFrom_toNat c)

/-- Witness for C4: the zero strobe model, a 16-byte key, a 24-byte nonce,
the Raw codec, the empty plaintext; the encrypted output decrypts back. -/
theorem decrypt_encrypt_roundtrip_witness :
    decrypt m0 wKey (List.replicate 24 0 ++ [0x55] ++ List.replicate 16 0)
      = .ok (Codec.raw, []) :=
  decrypt_encrypt_roundtrip m0 wKey wNonce .raw []
    (List.replicate 24 0 ++ [0x55] ++ List.replicate 16 0)
    (by decide) (by decide) (by decide)

/-- Claim C8: the output of encrypt is laid out as the 24-byte nonce, then
the in-place encryption of varint(codec_tag) ++ plaintext, then a 16-byte
authentication tag, for a total of 24 + len(varint) + len(p) + 16 bytes. -/
theorem encrypt_wire_layout (m : StrobeModel) (key nonce : List Nat) (c : Codec)
    (p : List Nat) (hk : 16 ≤ key.length) (hn : nonce.length = 24) :
    ∃ ct mac,
      encrypt m key c p nonce = .ok (nonce ++ ct ++ mac)
        ∧ ct = (sendEnc m (encTranscript key nonce) (varintEncode c.toNat ++ p)).1
        ∧ mac = sendMac m
            (sendEnc m (encTranscript key nonce) (varintEncode c.toNat ++ p)).2 TAG_LEN
        ∧ ct.length = (varintEncode c.toNat).length + p.length
        ∧ mac.length = 16
        ∧ (nonce ++ ct ++ mac).length
            = 24 + ((varintEncode c.toNat).length + p.length) + 16 := by
  have hk2 : ¬ key.length < 16 := by omega
  refine ⟨_, _, ?_, rfl, rfl, ?_, ?_, ?_⟩
  · unfold encrypt
    rw [if_neg hk2]
  · simp only [sendEnc, xorKs_length, List.length_append]
  · exact sendMac_length _ _ _
  · simp only [sendEnc, sendMac_length, List.length_append, xorKs_length, hn, TAG_LEN]

/-- Witness for C8 at concrete key, nonce, codec and empty plaintext. -/
theorem encrypt_wire_layout_witness :
    ∃ ct mac,
      encrypt m0 wKey .raw [] wNonce = .ok (wNonce ++ ct ++ mac)
        ∧ ct = (sendEnc m0 (encTranscript wKey wNonce)
            (varintEncode Codec.raw.toNat ++ [])).1
        ∧ mac = sendMac m0
            (sendEnc m0 (encTranscript wKey wNonce) (varintEncode Codec.raw.toNat ++ [])).2
            TAG_LEN
        ∧ ct.length = (varintEncode Codec.raw.toNat).length + List.length ([] : List Nat)
        ∧ mac.length = 16
        ∧ (wNonce ++ ct ++ mac).length
            = 24 + ((varintEncode Codec.raw.toNat).length + List.length ([] : List Nat)) + 16 :=
  encrypt_wire_layout m0 wKey wNonce .raw [] (by decide) (by decide)

/-- Claim C9 counterexample: decrypt checks the key length before the
ciphertext length, so with an empty key and an empty (shorter than 40
bytes) input it fails with KeyTooShort, not CipherTooShort. -/
theorem decrypt_short_key_counterexample :
    decrypt m0 [] [] = .error CryptoError.keyTooShort
      ∧ decrypt m0 [] [] ≠ .error CryptoError.cipherTooShort := by
  constructor
  · rfl
  · intro h
    exact CryptoError.noConfusion (Except.error.inj h)

/-- Claim C9 (amended): for every key of length at least 16 and every
input shorter than 40 bytes, decrypt fails with CipherTooShort before any
decryption step. -/
theorem decrypt_short_cipher (m : StrobeModel) (key buf : List Nat)
    (hk : 16 ≤ key.length) (hb : buf.length < 40) :
    decrypt m key buf = .error CryptoError.cipherTooShort := by
  have hk2 : ¬ key.length < 16 := by omega
  have hlen : buf.length < TAG_LEN + NONCE_LEN := by
    simp only [TAG_LEN, NONCE_LEN]
    omega
  unfold decrypt
  rw [if_neg hk2, if_pos hlen]

/-- Witness for the amended C9 at a 16-byte key and the empty input. -/
theorem decrypt_short_cipher_witness :
    decrypt m0 wKey [] = .error CryptoError.cipherTooShort :=
  decrypt_short_cipher m0 wKey [] (by decide) (by decide)

/-- Claim C5: when the insert_batch of the cache fails (the builder commit
returned an error at any point), the cache state is unchanged — no
(cid, value) pair from the failed batch is added. -/
theorem cacheInsertBatch_error_keeps_cache {T : Type} (ok : StoreOracle)
    (vis : Visibility) (st : SizedCache T) (cb : CacheBatch T) (e : BError)
    (h : (cacheInsertBatch ok vis st cb).2.2 = .error e) :
    (cacheInsertBatch ok vis st cb).1 = st := by
  unfold cacheInsertBatch at h ⊢
  cases hres : insertBatch ok vis cb.blocks with
  | mk tr r =>
    rw [hres] at h
    cases r with
    | error e2 => rfl
    | ok cid => simp at h

/-- Witness for C5: a rejecting store and a one-block batch with one
staged pair: the commit fails and the cache is untouched. -/
theorem cacheInsertBatch_error_keeps_cache_witness :
    (cacheInsertBatch okNone .Public wCache wCacheBatch).1 = wCache :=
  cacheInsertBatch_error_keeps_cache okNone .Public wCache wCacheBatch
    .storeError (by decide)

/-- Claim C6: after a successful cache insert returning cid c, an
immediately following get of c is satisfied from the cache entry — it
returns the inserted value and performs no store read (the cache capacity
is at least one, as the cached crate requires). -/
theorem cacheGet_after_insert {T : Type} (enc : T → Except BError Block)
    (ok : StoreOracle) (vis : Visibility) (st : SizedCache T) (v : T)
    (dec : Cid → Except BError T) (cid : Cid)
    (hcap : 1 ≤ st.cap)
    (h : (cacheInsert enc ok vis st v).2.2 = .ok cid) :
    (cacheGetOp dec (cacheInsert enc ok vis st v).1 cid).2.1 = false
      ∧ (cacheGetOp dec (cacheInsert enc ok vis st v).1 cid).2.2 = .ok v := by
  unfold cacheInsert at h ⊢
  cases hres : builderInsert enc ok vis v with
  | mk tr r =>
    rw [hres] at h
    cases r with
    | error e => simp at h
    | ok cid2 =>
      have hcid : cid2 = cid := by simpa using h
      subst hcid
      obtain ⟨n, hcapn⟩ : ∃ n, st.cap = n + 1 := ⟨st.cap - 1, by omega⟩
      constructor <;>
        simp [cacheGetOp, cacheGet, cacheSet, hcapn, List.take_succ_cons, List.find?_cons]

/-- Witness for C6: inserting 5 into an empty capacity-one cache, then
getting it back without a store read. -/
theorem cacheGet_after_insert_witness :
    (cacheGetOp (fun _ => .error BError.notFound)
        (cacheInsert enc0 okAll .Public ⟨1, []⟩ 5).1 ⟨0x71, [5]⟩).2.1 = false
      ∧ (cacheGetOp (fun _ => .error BError.notFound)
          (cacheInsert enc0 okAll .Public ⟨1, []⟩ 5).1 ⟨0x71, [5]⟩).2.2 = .ok 5 :=
  cacheGet_after_insert enc0 okAll .Public ⟨1, []⟩ 5
    (fun _ => .error BError.notFound) ⟨0x71, [5]⟩ (by decide) (by decide)

/-- Claim C7: get_path decodes the root and indexes segment by segment,
dereferencing every link it encounters — including a link produced by the
final segment; on the demo store (insert a map with key a holding 3
yielding cidA, then insert a root block linking to it yielding cidRoot),
resolving root/0/child/a from cidRoot returns the integer 3 while
fetching exactly the root block and the linked block. -/
theorem getPath_linked_dag :
    getPath (fetchOf demoStore) ⟨cidRoot, ["root", "0", "child", "a"]⟩
        = ([cidRoot, cidA], .ok (.integer 3))
      ∧ ∀ (fetch : Cid → Except BError Ipld) (cur cur1 : Ipld) (pre : List String)
          (tr : List Cid) (s : String) (c : Cid),
          resolveSegs fetch cur pre = (tr, .ok cur1) →
          ipldGet cur1 s = .ok (.link c) →
          resolveSegs fetch cur (pre ++ [s]) = (tr ++ [c], fetch c) := by
  constructor
  · rfl
  · intro fetch cur cur1 pre tr s c hpre hseg
    exact resolveSegs_snoc_link fetch cur cur1 pre tr s c hpre hseg

/-- Witness for C7: the concrete demo resolution together with a terminal
link being dereferenced on a one-segment path. -/
theorem getPath_linked_dag_witness :
    getPath (fetchOf demoStore) ⟨cidRoot, ["root", "0", "child", "a"]⟩
        = ([cidRoot, cidA], .ok (.integer 3))
      ∧ resolveSegs (fetchOf demoStore) (.map [("k", .link cidA)]) ["k"]
          = ([cidA], fetchOf demoStore cidA) :=
  ⟨getPath_linked_dag.1,
   getPath_linked_dag.2 (fetchOf demoStore) (.map [("k", .link cidA)])
     (.map [("k", .link cidA)]) [] [] "k" cidA rfl rfl⟩

/-- Claim C10: get_path on a DagPath with an empty segment list (as built
from a bare Cid) performs exactly the one root fetch and returns the
decoded root value unchanged; in particular a root decoding to a bare
link is returned without being dereferenced. -/
theorem getPath_empty_path (fetch : Cid → Except BError Ipld) (r : Cid) :
    getPath fetch (DagPath.fromCid r) = ([r], fetch r)
      ∧ ∀ c : Cid, fetch r = .ok (.link c) →
          (getPath fetch (DagPath.fromCid r)).2 = .ok (.link c) := by
  have h1 : getPath fetch (DagPath.fromCid r) = ([r], fetch r) := by
    simp only [getPath, DagPath.fromCid]
    cases hf : fetch r with
    | error e => rfl
    | ok v => rfl
  refine ⟨h1, ?_⟩
  intro c hf
  rw [h1]
  exact hf

/-- Witness for C10: a fetch that decodes every block to a bare link; the
link comes back undereferenced after the single root fetch. -/
theorem getPath_empty_path_witness :
    getPath (fun _ => .ok (.link cidA)) (DagPath.fromCid cidRoot)
        = ([cidRoot], .ok (.link cidA))
      ∧ (getPath (fun _ => .ok (.link cidA)) (DagPath.fromCid cidRoot)).2
          = .ok (.link cidA) :=
  ⟨(getPath_empty_path (fun _ => .ok (.link cidA)) cidRoot).1,
   (getPath_empty_path (fun _ => .ok (.link cidA)) cidRoot).2 cidA rfl⟩

end IpldBB
